import Mathlib

/-!
Shallow embedding of `filedupes.py` (Emetophobe/filedupes): a tool that finds
duplicate files under a directory tree by comparing content hashes.

Modelling conventions:
* A byte string is a `List Nat`.
* A filesystem path is its list of components (`os.path.join root name`
  appends one component; real file names contain no separator).
* The filesystem under the scanned root is an inductive tree `FSEntry`;
  the order of a directory's `children` list is the (deterministic within a
  run) order in which `os.walk` lists that directory's entries.
* A file whose `content` is `.error e` raises `OSError` with `strerror = e`
  when opened or read (`get_hash` propagates it).
* `hashlib` is modelled by an arbitrary function `hashFn : String → Bytes →
  String` giving the hex digest of an algorithm name applied to a byte
  string; a `hashlib.new` hasher object is modelled by its state, the bytes
  fed to it so far (`update` appends, `hexdigest` applies `hashFn`).
-/

namespace FileDupes

/-- A byte string (each entry one byte). -/
abbrev Bytes := List Nat

/-- A path as its list of components. -/
abbrev Path := List String

/-- An abstract hash library: algorithm name and input bytes to hex digest. -/
abbrev HashFn := String → Bytes → String

instance {α β : Type _} [DecidableEq α] [DecidableEq β] :
    DecidableEq (Except α β) := fun x y =>
  match x, y with
  | .error a, .error b => decidable_of_iff (a = b) (by simp)
  | .error _, .ok _ => isFalse (by simp)
  | .ok _, .error _ => isFalse (by simp)
  | .ok a, .ok b => decidable_of_iff (a = b) (by simp)

/-- A regular file reached by the walk: its absolute path and either its
byte content or the `OSError.strerror` raised when reading it. -/
structure FileNode where
  path : Path
  content : Except String Bytes
  deriving Repr, DecidableEq

/-- A filesystem tree entry: a regular file (name and readable content or
read error) or a directory (name and listed children, in listing order). -/
inductive FSEntry where
  | file (name : String) (content : Except String Bytes)
  | dir (name : String) (children : List FSEntry)
  deriving Repr

/-- The regular files directly inside a directory with path `root` whose
entry list is `entries` (the `files` component of one `os.walk` triple). -/
def filesOf (root : Path) (entries : List FSEntry) : List FileNode :=
  entries.filterMap fun e =>
    match e with
    | .file n c => some ⟨root ++ [n], c⟩
    | .dir _ _ => none

mutual

/-- `os.walk(root, topdown=True)` restricted to what the `find_dupes` loop
consumes: the files of each visited directory, in visit order.  The loop
body prunes `dirs[:] = [d for d in dirs if d not in exclude]` before
descending, so a directory whose base name is in `exclude` is never
entered. -/
def walkDir (exclude : List String) (root : Path) (children : List FSEntry) :
    List FileNode :=
  filesOf root children ++ walkSubs exclude root children

/-- Walk the subdirectories of `root` (in listing order), skipping those
whose name is in `exclude`. -/
def walkSubs (exclude : List String) (root : Path) :
    List FSEntry → List FileNode
  | [] => []
  | .file _ _ :: rest => walkSubs exclude root rest
  | .dir n cs :: rest =>
      (if n ∈ exclude then [] else walkDir exclude (root ++ [n]) cs) ++
        walkSubs exclude root rest

end

/-- `hashlib` hasher state: the bytes fed so far; `update` appends a chunk. -/
def Hasher.update (s : Bytes) (chunk : Bytes) : Bytes := s ++ chunk

/-- The chunks produced by `iter(lambda: f.read(65536), b'')`: successive
reads of at most 65536 bytes, stopping at the empty read. -/
def readChunks (bs : Bytes) : List Bytes :=
  if h : bs = [] then []
  else bs.take 65536 :: readChunks (bs.drop 65536)
termination_by bs.length
decreasing_by
  simp only [List.length_drop]
  have : 0 < bs.length := List.length_pos.mpr h
  omega

/-- `get_hash(filename, algorithm)`: stream the file through a fresh hasher
in chunks of at most 65536 bytes and return the hex digest; an `OSError`
while opening or reading is propagated. -/
def get_hash (hashFn : HashFn) (algorithm : String) (f : FileNode) :
    Except String String :=
  match f.content with
  | .error e => .error e
  | .ok bs => .ok (hashFn algorithm ((readChunks bs).foldl Hasher.update []))

/-- The accumulated digest-to-paths index (`hashes = defaultdict(list)`):
an association list in key insertion order, each value list in path
insertion order. -/
abbrev HashIndex := List (String × List Path)

/-- `hashes[digest].append(filename)` on a `defaultdict(list)`: append to
the existing entry for `digest`, or add a new entry at the end. -/
def addHash : HashIndex → String → Path → HashIndex
  | [], d, p => [(d, [p])]
  | (k, v) :: rest, d, p =>
      if k = d then (k, v ++ [p]) :: rest else (k, v) :: addHash rest d p

/-- One iteration of the `find_dupes` file loop: try `get_hash`; on
`OSError` record the printed error line (path and `strerror`) and continue,
otherwise append the path under its digest. -/
def scanStep (hashFn : HashFn) (algorithm : String)
    (acc : HashIndex × List (Path × String)) (f : FileNode) :
    HashIndex × List (Path × String) :=
  match get_hash hashFn algorithm f with
  | .error e => (acc.1, acc.2 ++ [(f.path, e)])
  | .ok d => (addHash acc.1 d f.path, acc.2)

/-- The whole `find_dupes` loop over the walked files: the accumulated
index together with the reported per-file read errors. -/
def scanResults (hashFn : HashFn) (algorithm : String) (fs : List FileNode) :
    HashIndex × List (Path × String) :=
  fs.foldl (scanStep hashFn algorithm) ([], [])

/-- `find_dupes(directory, algorithm, exclude)`: walk the tree rooted at
`root` (whose children are `tree`), hash every file, and return only the
index entries with more than one path. -/
def find_dupes (hashFn : HashFn) (root : Path) (tree : List FSEntry)
    (algorithm : String) (exclude : List String) : HashIndex :=
  (scanResults hashFn algorithm (walkDir exclude root tree)).1.filter
    fun e => decide (1 < e.2.length)

/-- The default algorithm (`DEFAULT_ALGORITHM` in the source). -/
def DEFAULT_ALGORITHM : String := "sha256"

/-- The default exclusion list (`DEFAULT_EXCLUDE` in the source). -/
def DEFAULT_EXCLUDE : List String :=
  ["RCS", "CVS", "tags", ".git", ".venv", ".hg", ".bzr", "_darcs",
   "__pycache__"]

/-- The fatal startup errors `main` raises through `parser.error` (argparse
prints the message and exits with status 2). -/
inductive CliError where
  | invalidDirectory (dir : String)
  | invalidAlgorithm (supported : List String)
  deriving Repr, DecidableEq

/-- What `main` observes of its surroundings: whether
`os.path.isdir(args.directory)` holds, `hashlib.algorithms_available`, the
absolute root path `os.path.abspath(args.directory)`, the filesystem tree
below it, and the hash library. -/
structure Env where
  isDirectory : Bool
  algorithms_available : List String
  root : Path
  tree : List FSEntry
  hashFn : HashFn

/-- The parsed command line arguments. -/
structure Args where
  directory : String
  algorithm : String
  exclude : List String

/-- Python `str.lower()` (for the ASCII algorithm names at play): lowercase
every character. -/
def pyLower (s : String) : String := ⟨s.data.map Char.toLower⟩

/-- The validation and scan of `main()`: reject an invalid directory, then
reject an algorithm whose lowercased name is not available (reporting the
available algorithms), then call `find_dupes` — with the original
`args.algorithm`, not the lowercased copy. -/
def main_run (env : Env) (args : Args) : Except CliError HashIndex :=
  if env.isDirectory = false then .error (.invalidDirectory args.directory)
  else
    let algorithm := pyLower args.algorithm
    if algorithm ∉ env.algorithms_available then
      .error (.invalidAlgorithm env.algorithms_available)
    else
      .ok (find_dupes env.hashFn env.root env.tree args.algorithm
        args.exclude)

/-- The progress line `main` prints before scanning. -/
def searchingLine : String :=
  "Searching for duplicates. This may take a while..."

/-- Render a path for printing (components joined by the separator). -/
def renderPath (p : Path) : String := String.intercalate "/" p

/-- One printed duplicate group: the digest line, each path indented by two
spaces, then a blank line. -/
def renderGroup (g : String × List Path) : List String :=
  (g.1 :: g.2.map fun p => "  " ++ renderPath p) ++ [""]

/-- All printed duplicate groups, in index order. -/
def renderDupes (dupes : HashIndex) : List String :=
  (dupes.map renderGroup).flatten

/-- The final summary line (`duration` stands for the formatted elapsed
time, which the model does not compute). -/
def summaryLine (n : Nat) (duration : String) : String :=
  "Found " ++ toString n ++ " duplicate hashes in " ++ duration ++
    " seconds."

/-- The message printed by `parser.error` for each fatal startup error. -/
def renderError : CliError → List String
  | .invalidDirectory d => ["Invalid directory: " ++ d]
  | .invalidAlgorithm supported =>
      ["Invalid algorithm. List of supported algorithms:",
       String.intercalate ", " supported]

/-- The whole script under the `if __name__ == '__main__'` guard: the
printed lines and the process exit code.  `interrupted` models a
`KeyboardInterrupt` arriving while `find_dupes` is scanning (the
long-running phase): the `except KeyboardInterrupt` handler prints
`Aborted.` and the script then ends normally, so the interpreter exits
with code 0.  `parser.error` exits with code 2; a completed run falls off
the end of `main` and exits with code 0. -/
def script_run (env : Env) (args : Args) (interrupted : Bool)
    (duration : String) : List String × Nat :=
  match main_run env args with
  | .error e => (renderError e, 2)
  | .ok dupes =>
      if interrupted then ([searchingLine, "Aborted."], 0)
      else
        (([searchingLine, ""] ++ renderDupes dupes) ++
          [summaryLine dupes.length duration], 0)

/-! Specification-side definitions, used to state the claims. -/

/-- The digest group of `d` over a file list, in discovery order: the
paths of the readable files whose digest under the algorithm is `d`. -/
def groupOf (hashFn : HashFn) (algorithm : String) (fs : List FileNode)
    (d : String) : List Path :=
  fs.filterMap fun f =>
    match get_hash hashFn algorithm f with
    | .ok d' => if d' = d then some f.path else none
    | .error _ => none

/-- `defaultdict(list)` lookup: the path list stored under a digest, `[]`
for a missing key. -/
def lookupIdx : HashIndex → String → List Path
  | [], _ => []
  | (k, v) :: rest, d => if k = d then v else lookupIdx rest d

/-- The read errors `find_dupes` reports, in file order. -/
def errorsOf (fs : List FileNode) : List (Path × String) :=
  fs.filterMap fun f =>
    match f.content with
    | .error e => some (f.path, e)
    | .ok _ => none

/-- The digests of the readable files, in discovery order. -/
def digestsOf (hashFn : HashFn) (algorithm : String) (fs : List FileNode) :
    List String :=
  fs.filterMap fun f => (get_hash hashFn algorithm f).toOption

/-- All paths stored anywhere in an index. -/
def pathsOf (idx : HashIndex) : List Path :=
  (idx.map fun e => e.2).flatten

/-- `p` lies strictly under a directory whose base name is in `exclude`,
somewhere below `root`: some proper ancestor of `p` below `root` has an
excluded base name. -/
def underExcluded (exclude : List String) (root : Path) (p : Path) : Prop :=
  ∃ pre d suf, p = root ++ pre ++ [d] ++ suf ∧ d ∈ exclude ∧ suf ≠ []

/-! Lemmas about the hasher. -/

theorem foldl_update (l : List Bytes) (a : Bytes) :
    l.foldl Hasher.update a = a ++ l.flatten := by
  induction l generalizing a with
  | nil => simp
  | cons c l ih => simp [Hasher.update, ih]

theorem readChunks_flatten (bs : Bytes) : (readChunks bs).flatten = bs := by
  induction bs using readChunks.induct with
  | case1 => simp [readChunks]
  | case2 bs h ih =>
      rw [readChunks]
      simp only [h, dite_false, List.flatten_cons, ih,
        List.take_append_drop]

theorem readChunks_chunk_le (bs : Bytes) :
    ∀ c ∈ readChunks bs, c.length ≤ 65536 := by
  induction bs using readChunks.induct with
  | case1 => simp [readChunks]
  | case2 bs h ih =>
      rw [readChunks]
      simp only [h, dite_false, List.mem_cons]
      rintro c (rfl | hc)
      · simp [List.length_take]
      · exact ih c hc

theorem get_hash_ok (hashFn : HashFn) (algorithm : String) (p : Path)
    (bs : Bytes) :
    get_hash hashFn algorithm ⟨p, .ok bs⟩ = .ok (hashFn algorithm bs) := by
  simp [get_hash, foldl_update, readChunks_flatten]

theorem get_hash_err (hashFn : HashFn) (algorithm : String) (p : Path)
    (e : String) :
    get_hash hashFn algorithm ⟨p, .error e⟩ = .error e := rfl

/-! Lemmas about the index. -/

theorem lookupIdx_addHash (idx : HashIndex) (d d' : String) (p : Path) :
    lookupIdx (addHash idx d' p) d =
      if d' = d then lookupIdx idx d ++ [p] else lookupIdx idx d := by
  induction idx with
  | nil =>
      by_cases h : d' = d <;> simp [addHash, lookupIdx, h]
  | cons kv rest ih =>
      obtain ⟨k, v⟩ := kv
      by_cases hk : k = d'
      · subst hk
        by_cases hd : k = d <;> simp [addHash, lookupIdx, hd]
      · by_cases hd : k = d
        · have hne : ¬ d' = d := fun h => hk (hd.trans h.symm)
          have hne' : ¬ d = d' := fun h => hne h.symm
          simp [addHash, lookupIdx, hk, hd, hne, hne']
        · simp [addHash, lookupIdx, hk, hd, ih]

/-! Characterization of the scan fold. -/

theorem scan_fold_lookup (hashFn : HashFn) (algorithm : String)
    (d : String) :
    ∀ (fs : List FileNode) (acc : HashIndex × List (Path × String)),
      lookupIdx (fs.foldl (scanStep hashFn algorithm) acc).1 d =
        lookupIdx acc.1 d ++ groupOf hashFn algorithm fs d := by
  intro fs
  induction fs with
  | nil => intro acc; simp [groupOf]
  | cons f fs ih =>
      intro acc
      rw [List.foldl_cons, ih]
      cases hgf : get_hash hashFn algorithm f with
      | error e => simp [scanStep, hgf, groupOf, List.filterMap_cons]
      | ok d' =>
          by_cases hd : d' = d
          · subst hd
            simp [scanStep, hgf, lookupIdx_addHash, groupOf,
              List.filterMap_cons]
          · simp [scanStep, hgf, lookupIdx_addHash, hd, groupOf,
              List.filterMap_cons]

theorem lookupIdx_scanResults (hashFn : HashFn) (algorithm : String)
    (fs : List FileNode) (d : String) :
    lookupIdx (scanResults hashFn algorithm fs).1 d =
      groupOf hashFn algorithm fs d := by
  simpa [scanResults, lookupIdx] using
    scan_fold_lookup hashFn algorithm d fs ([], [])

theorem scan_fold_errors (hashFn : HashFn) (algorithm : String) :
    ∀ (fs : List FileNode) (acc : HashIndex × List (Path × String)),
      (fs.foldl (scanStep hashFn algorithm) acc).2 =
        acc.2 ++ errorsOf fs := by
  intro fs
  induction fs with
  | nil => intro acc; simp [errorsOf]
  | cons f fs ih =>
      intro acc
      rw [List.foldl_cons, ih]
      cases hc : f.content with
      | error e =>
          simp [scanStep, get_hash, hc, errorsOf, List.filterMap_cons]
      | ok bs =>
          simp [scanStep, get_hash, hc, errorsOf, List.filterMap_cons]

theorem scanResults_errors (hashFn : HashFn) (algorithm : String)
    (fs : List FileNode) :
    (scanResults hashFn algorithm fs).2 = errorsOf fs := by
  simpa [scanResults] using scan_fold_errors hashFn algorithm fs ([], [])

/-- The keys of an index, in insertion order. -/
def keysOf (idx : HashIndex) : List String := idx.map fun e => e.1

theorem keysOf_addHash (idx : HashIndex) (d : String) (p : Path) :
    keysOf (addHash idx d p) =
      if d ∈ keysOf idx then keysOf idx else keysOf idx ++ [d] := by
  induction idx with
  | nil => simp [addHash, keysOf]
  | cons kv rest ih =>
      obtain ⟨k, v⟩ := kv
      by_cases hk : k = d
      · simp [addHash, keysOf, hk]
      · have hdk : ¬ d = k := fun h => hk h.symm
        simp only [addHash, hk, if_false, keysOf, List.map_cons] at ih ⊢
        rw [ih]
        by_cases hm : d ∈ List.map (fun e => e.1) rest
        · simp [hm, hdk]
        · simp [hm, hdk]

theorem nodup_keysOf_addHash (idx : HashIndex) (d : String) (p : Path)
    (h : (keysOf idx).Nodup) : (keysOf (addHash idx d p)).Nodup := by
  rw [keysOf_addHash]
  by_cases hm : d ∈ keysOf idx
  · simpa [hm] using h
  · simp only [hm, if_false, List.nodup_append]
    refine ⟨h, by simp, ?_⟩
    intro x hx hxd
    simp only [List.mem_singleton] at hxd
    exact hm (hxd ▸ hx)

theorem scan_fold_keys_nodup (hashFn : HashFn) (algorithm : String) :
    ∀ (fs : List FileNode) (acc : HashIndex × List (Path × String)),
      (keysOf acc.1).Nodup →
      (keysOf (fs.foldl (scanStep hashFn algorithm) acc).1).Nodup := by
  intro fs
  induction fs with
  | nil => intro acc h; exact h
  | cons f fs ih =>
      intro acc h
      rw [List.foldl_cons]
      refine ih _ ?_
      cases hgf : get_hash hashFn algorithm f with
      | error e => simpa [scanStep, hgf] using h
      | ok d => simpa [scanStep, hgf] using nodup_keysOf_addHash _ d _ h

theorem scanResults_keys_nodup (hashFn : HashFn) (algorithm : String)
    (fs : List FileNode) :
    (keysOf (scanResults hashFn algorithm fs).1).Nodup :=
  scan_fold_keys_nodup hashFn algorithm fs ([], []) (by simp [keysOf])

theorem lookupIdx_of_mem (idx : HashIndex)
    (h : (keysOf idx).Nodup) (d : String) (ps : List Path)
    (hm : (d, ps) ∈ idx) : lookupIdx idx d = ps := by
  induction idx with
  | nil => cases hm
  | cons kv rest ih =>
      obtain ⟨k, v⟩ := kv
      rcases List.mem_cons.mp hm with heq | hm'
      · cases heq
        simp [lookupIdx]
      · have hmem : d ∈ keysOf rest := by
          simpa [keysOf] using List.mem_map_of_mem (fun e => e.1) hm'
        have hparts := List.nodup_cons.mp
          (show (k :: keysOf rest).Nodup from h)
        have hk : ¬ k = d := fun hkd => hparts.1 (hkd ▸ hmem)
        simpa [lookupIdx, hk] using ih hparts.2 hm'

theorem mem_scan_entry (hashFn : HashFn) (algorithm : String)
    (fs : List FileNode) (d : String) (ps : List Path)
    (hm : (d, ps) ∈ (scanResults hashFn algorithm fs).1) :
    ps = groupOf hashFn algorithm fs d := by
  have h1 := scanResults_keys_nodup hashFn algorithm fs
  have h2 := lookupIdx_of_mem _ h1 d ps hm
  rw [← h2, lookupIdx_scanResults]

theorem mem_groupOf (hashFn : HashFn) (algorithm : String)
    (fs : List FileNode) (d : String) (q : Path) :
    q ∈ groupOf hashFn algorithm fs d ↔
      ∃ f, f ∈ fs ∧ get_hash hashFn algorithm f = .ok d ∧ f.path = q := by
  rw [groupOf, List.mem_filterMap]
  constructor
  · rintro ⟨f, hf, hfn⟩
    cases hg : get_hash hashFn algorithm f with
    | error e => rw [hg] at hfn; cases hfn
    | ok d' =>
        rw [hg] at hfn
        by_cases hd : d' = d
        · subst hd
          simp only [if_true] at hfn
          exact ⟨f, hf, hg, by simpa using hfn⟩
        · simp [hd] at hfn
  · rintro ⟨f, hf, hg, rfl⟩
    exact ⟨f, hf, by rw [hg]; simp⟩

theorem groupOf_length (hashFn : HashFn) (algorithm : String)
    (fs : List FileNode) (d : String) :
    (groupOf hashFn algorithm fs d).length =
      (digestsOf hashFn algorithm fs).count d := by
  induction fs with
  | nil => simp [groupOf, digestsOf]
  | cons f fs ih =>
      cases hg : get_hash hashFn algorithm f with
      | error e =>
          have hgroup : groupOf hashFn algorithm (f :: fs) d =
              groupOf hashFn algorithm fs d := by
            simp [groupOf, List.filterMap_cons, hg]
          have hdig : digestsOf hashFn algorithm (f :: fs) =
              digestsOf hashFn algorithm fs := by
            simp [digestsOf, List.filterMap_cons, hg, Except.toOption]
          rw [hgroup, hdig]
          exact ih
      | ok d' =>
          have hdig : digestsOf hashFn algorithm (f :: fs) =
              d' :: digestsOf hashFn algorithm fs := by
            simp [digestsOf, List.filterMap_cons, hg, Except.toOption]
          by_cases hd : d' = d
          · subst hd
            have hgroup : groupOf hashFn algorithm (f :: fs) d' =
                f.path :: groupOf hashFn algorithm fs d' := by
              simp [groupOf, List.filterMap_cons, hg]
            rw [hgroup, hdig, List.count_cons_self, List.length_cons, ih]
          · have hgroup : groupOf hashFn algorithm (f :: fs) d =
                groupOf hashFn algorithm fs d := by
              simp [groupOf, List.filterMap_cons, hg, hd]
            have hne : d ≠ d' := fun h => hd h.symm
            rw [hgroup, hdig, List.count_cons_of_ne hne, ih]

theorem pathsOf_cons (k : String) (v : List Path) (rest : HashIndex) :
    pathsOf ((k, v) :: rest) = v ++ pathsOf rest := by
  simp [pathsOf]

theorem mem_pathsOf_addHash (idx : HashIndex) (d : String) (p q : Path) :
    q ∈ pathsOf (addHash idx d p) ↔ q ∈ pathsOf idx ∨ q = p := by
  induction idx with
  | nil => simp [addHash, pathsOf]
  | cons kv rest ih =>
      obtain ⟨k, v⟩ := kv
      by_cases hk : k = d
      · rw [show addHash ((k, v) :: rest) d p = (k, v ++ [p]) :: rest by
            simp [addHash, hk],
          pathsOf_cons, pathsOf_cons]
        simp only [List.mem_append, List.mem_singleton]
        tauto
      · rw [show addHash ((k, v) :: rest) d p =
              (k, v) :: addHash rest d p by simp [addHash, hk],
          pathsOf_cons, pathsOf_cons]
        simp only [List.mem_append, ih]
        tauto

theorem mem_pathsOf_scan (hashFn : HashFn) (algorithm : String) :
    ∀ (fs : List FileNode) (acc : HashIndex × List (Path × String))
      (q : Path), q ∈ pathsOf (fs.foldl (scanStep hashFn algorithm) acc).1 →
      q ∈ pathsOf acc.1 ∨ ∃ f, f ∈ fs ∧ f.path = q := by
  intro fs
  induction fs with
  | nil => intro acc q h; exact Or.inl h
  | cons f fs ih =>
      intro acc q h
      rw [List.foldl_cons] at h
      rcases ih _ q h with h' | ⟨g, hg, hgq⟩
      · cases hgf : get_hash hashFn algorithm f with
        | error e =>
            rw [scanStep, hgf] at h'
            exact Or.inl h'
        | ok d =>
            rw [scanStep, hgf] at h'
            rcases (mem_pathsOf_addHash _ _ _ _).mp h' with h'' | rfl
            · exact Or.inl h''
            · exact Or.inr ⟨f, List.mem_cons_self f fs, rfl⟩
      · exact Or.inr ⟨g, List.mem_cons_of_mem f hg, hgq⟩

/-! Shape of the paths produced by the walk. -/

theorem walk_shape (exclude : List String) :
    (∀ (root : Path) (children : List FSEntry),
        ∀ f ∈ walkDir exclude root children,
          ∃ chain nm, f.path = root ++ chain ++ [nm] ∧
            ∀ x ∈ chain, x ∉ exclude) ∧
    (∀ (root : Path) (l : List FSEntry),
        ∀ f ∈ walkSubs exclude root l,
          ∃ chain nm, f.path = root ++ chain ++ [nm] ∧
            ∀ x ∈ chain, x ∉ exclude) := by
  refine walkDir.mutual_induct exclude
    (fun root children => ∀ f ∈ walkDir exclude root children,
      ∃ chain nm, f.path = root ++ chain ++ [nm] ∧
        ∀ x ∈ chain, x ∉ exclude)
    (fun root l => ∀ f ∈ walkSubs exclude root l,
      ∃ chain nm, f.path = root ++ chain ++ [nm] ∧
        ∀ x ∈ chain, x ∉ exclude)
    ?_ ?_ ?_ ?_
  · intro root children ih f hf
    rw [walkDir] at hf
    rcases List.mem_append.mp hf with hf | hf
    · rcases List.mem_filterMap.mp hf with ⟨e, he, hfe⟩
      cases e with
      | file n c =>
          simp only [Option.some.injEq] at hfe
          exact ⟨[], n, by simp [← hfe], by simp⟩
      | dir n cs => cases hfe
    · exact ih f hf
  · intro root f hf
    simp only [walkSubs, List.not_mem_nil] at hf
  · intro root name content rest ih f hf
    simp only [walkSubs] at hf
    exact ih f hf
  · intro root n cs rest ih1 ih2 f hf
    simp only [walkSubs] at hf
    rcases List.mem_append.mp hf with hf | hf
    · by_cases hn : n ∈ exclude
      · simp [hn] at hf
      · simp only [hn, if_false] at hf
        obtain ⟨chain, nm, hpath, hclean⟩ := ih1 f hf
        refine ⟨n :: chain, nm, ?_, ?_⟩
        · simpa [List.append_assoc] using hpath
        · intro x hx
          rcases List.mem_cons.mp hx with rfl | hx
          · exact hn
          · exact hclean x hx
    · exact ih2 f hf

theorem clean_chain_not_underExcluded (exclude : List String) (root : Path)
    (chain : Path) (nm : String)
    (hclean : ∀ x ∈ chain, x ∉ exclude) :
    ¬ underExcluded exclude root (root ++ chain ++ [nm]) := by
  rintro ⟨pre, d, suf, heq, hd, hsuf⟩
  obtain ⟨s, suf', rfl⟩ := List.exists_cons_of_ne_nil hsuf
  have heq' : chain ++ [nm] = pre ++ (d :: s :: suf') := by
    have h0 : root ++ (chain ++ [nm]) =
        root ++ (pre ++ (d :: s :: suf')) := by
      simpa [List.append_assoc] using heq
    exact List.append_cancel_left h0
  have hchain : chain = pre ++ (d :: s :: suf').dropLast := by
    have h1 : (chain ++ [nm]).dropLast = chain := List.dropLast_concat
    rw [heq'] at h1
    rw [List.dropLast_append_of_ne_nil _ (by simp)] at h1
    exact h1.symm
  have hdmem : d ∈ chain := by
    rw [hchain]
    have : (d :: s :: suf').dropLast = d :: (s :: suf').dropLast := rfl
    rw [this]
    exact List.mem_append_right _ (List.mem_cons_self _ _)
  exact hclean d hdmem hd

/-! Further helper lemmas. -/

theorem mem_walkDir_of_file (exclude : List String) (root : Path)
    (children : List FSEntry) (n : String) (c : Except String Bytes)
    (h : FSEntry.file n c ∈ children) :
    (⟨root ++ [n], c⟩ : FileNode) ∈ walkDir exclude root children := by
  rw [walkDir]
  refine List.mem_append.mpr (Or.inl ?_)
  exact List.mem_filterMap.mpr ⟨FSEntry.file n c, h, rfl⟩

theorem groupOf_eq_map_filter (hashFn : HashFn) (algorithm : String)
    (fs : List FileNode) (d : String) :
    groupOf hashFn algorithm fs d =
      (fs.filter fun f =>
        decide (get_hash hashFn algorithm f = .ok d)).map
        fun f => f.path := by
  induction fs with
  | nil => simp [groupOf]
  | cons f fs ih =>
      cases hg : get_hash hashFn algorithm f with
      | error e =>
          simp only [groupOf, List.filterMap_cons, List.filter_cons, hg]
          simp only [groupOf] at ih
          simp [ih]
      | ok d' =>
          by_cases hd : d' = d <;>
            · simp only [groupOf, List.filterMap_cons, List.filter_cons,
                hg, hd]
              simp only [groupOf] at ih
              simp [ih, hd]

theorem get_hash_error_of_content (hashFn : HashFn) (algorithm : String)
    (f : FileNode) (e : String) (he : f.content = .error e) :
    get_hash hashFn algorithm f = .error e := by
  rw [get_hash, he]

theorem get_hash_ok_of_content (hashFn : HashFn) (algorithm : String)
    (f : FileNode) (bs : Bytes) (hb : f.content = .ok bs) :
    get_hash hashFn algorithm f = .ok (hashFn algorithm bs) := by
  simp [get_hash, hb, foldl_update, readChunks_flatten]

/-! Concrete instances used by the witnesses. -/

/-- A concrete hash library for examples: distinguishes the byte strings
used in the example trees. -/
def exHash : HashFn := fun _ bs =>
  if bs = [0] then "h0" else if bs = [1] then "h1" else
  if bs = [5] then "h5" else "hX"

/-- Two files with distinct contents. -/
def exTreeDistinct : List FSEntry :=
  [.file "a" (.ok [0]), .file "b" (.ok [1])]

/-- Two files with the same content. -/
def exTreeDupes : List FSEntry :=
  [.file "a" (.ok [5]), .file "b" (.ok [5])]

/-- Two duplicates plus a third copy inside a directory named `x`. -/
def exTreeExcluded : List FSEntry :=
  [.file "a" (.ok [5]), .file "b" (.ok [5]),
   .dir "x" [.file "f" (.ok [5])]]

/-- Three duplicates, one further copy unreadable. -/
def exTreeError : List FSEntry :=
  [.file "a" (.ok [5]), .file "b" (.error "Permission denied"),
   .file "c" (.ok [5]), .file "d" (.ok [5])]

/-- Two duplicates, one of them named like an excluded directory. -/
def exTreeMixed : List FSEntry :=
  [.file "x" (.ok [5]), .file "y" (.ok [5])]

/-- A concrete valid environment. -/
def exEnv : Env :=
  { isDirectory := true, algorithms_available := ["sha256"],
    root := ["r"], tree := exTreeDupes, hashFn := exHash }

/-- Concrete valid arguments. -/
def exArgs : Args := { directory := "r", algorithm := "sha256", exclude := [] }

/-- Concrete arguments with an unsupported algorithm. -/
def exArgsRot : Args := { directory := "r", algorithm := "rot13", exclude := [] }

/-- Concrete arguments with a mixed-case algorithm name. -/
def exArgsUpper : Args :=
  { directory := "r", algorithm := "SHA256", exclude := [] }

/-! The claims. -/

/-- C1: For every directory tree, algorithm, and exclusion set,
`find_dupes` returns exactly those entries of the accumulated
digest-to-paths index whose path list has more than one element; in
particular, a tree with no two files of identical content (pairwise
distinct digests, under the standard collision assumption) yields an
empty result — zero groups and a summary count (`len(dupes)`) of 0. -/
theorem find_dupes_exactly_multi_entries (hashFn : HashFn) (root : Path)
    (tree : List FSEntry) (algorithm : String) (exclude : List String) :
    (find_dupes hashFn root tree algorithm exclude =
      (scanResults hashFn algorithm (walkDir exclude root tree)).1.filter
        fun e => decide (1 < e.2.length)) ∧
    (∀ d ps, ((d, ps) ∈ find_dupes hashFn root tree algorithm exclude ↔
      (d, ps) ∈ (scanResults hashFn algorithm
        (walkDir exclude root tree)).1 ∧ 1 < ps.length)) ∧
    ((digestsOf hashFn algorithm (walkDir exclude root tree)).Nodup →
      find_dupes hashFn root tree algorithm exclude = [] ∧
      (find_dupes hashFn root tree algorithm exclude).length = 0) := by
  refine ⟨rfl, ?_, ?_⟩
  · intro d ps
    rw [find_dupes, List.mem_filter]
    simp
  · intro h
    have hempty : find_dupes hashFn root tree algorithm exclude = [] := by
      rw [find_dupes, List.filter_eq_nil_iff]
      rintro ⟨d, ps⟩ hm
      have hps := mem_scan_entry hashFn algorithm _ d ps hm
      have hlen : ps.length ≤ 1 := by
        rw [hps, groupOf_length]
        exact List.nodup_iff_count_le_one.mp h d
      simp only [decide_eq_true_eq]
      omega
    exact ⟨hempty, by rw [hempty]; rfl⟩

/-- Witness for C1: on a tree whose two files have distinct contents the
result is empty and the summary count is 0. -/
theorem find_dupes_exactly_multi_entries_witness :
    find_dupes exHash ["r"] exTreeDistinct "alg" [] = [] ∧
    (find_dupes exHash ["r"] exTreeDistinct "alg" []).length = 0 :=
  (find_dupes_exactly_multi_entries exHash ["r"] exTreeDistinct
      "alg" []).2.2
    (by simp [digestsOf, walkDir, walkSubs, filesOf, get_hash_ok, exHash,
      Except.toOption, exTreeDistinct])

/-- C2: `get_hash` reads the file in chunks of at most 65536 bytes folded
through the incremental hasher, and the result equals the digest of the
whole byte content taken at once; hence any two files with identical
content receive equal digests under a fixed algorithm. -/
theorem get_hash_chunked_equals_whole (hashFn : HashFn)
    (algorithm : String) (p : Path) (bs c : Bytes)
    (hc : c ∈ readChunks bs) :
    c.length ≤ 65536 ∧
    get_hash hashFn algorithm ⟨p, .ok bs⟩ = .ok (hashFn algorithm bs) ∧
    (∀ q : Path,
      get_hash hashFn algorithm ⟨q, .ok bs⟩ =
        get_hash hashFn algorithm ⟨p, .ok bs⟩) :=
  ⟨readChunks_chunk_le bs c hc, get_hash_ok hashFn algorithm p bs,
    fun q => by rw [get_hash_ok, get_hash_ok]⟩

/-- Witness for C2 at a concrete file content. -/
theorem get_hash_chunked_equals_whole_witness :
    ([1, 2] : Bytes).length ≤ 65536 ∧
    get_hash exHash "alg" ⟨["p"], .ok [1, 2]⟩ =
      .ok (exHash "alg" [1, 2]) ∧
    get_hash exHash "alg" ⟨["q"], .ok [1, 2]⟩ =
      get_hash exHash "alg" ⟨["p"], .ok [1, 2]⟩ :=
  have h := get_hash_chunked_equals_whole exHash "alg" ["p"] [1, 2] [1, 2]
    (by simp [readChunks])
  ⟨h.1, h.2.1, h.2.2 ["q"]⟩

/-- C3: no path lying under a directory whose base name is in the
exclusion set (exact name match, at any nesting depth) appears in any
output group of `find_dupes`. -/
theorem excluded_dir_paths_not_in_groups (hashFn : HashFn) (root : Path)
    (tree : List FSEntry) (algorithm : String) (exclude : List String)
    (p : Path) (d : String) (ps : List Path)
    (hex : underExcluded exclude root p)
    (hmem : (d, ps) ∈ find_dupes hashFn root tree algorithm exclude) :
    p ∉ ps := by
  intro hp
  have hidx := (List.mem_filter.mp hmem).1
  have hps := mem_scan_entry hashFn algorithm _ d ps hidx
  rw [hps] at hp
  obtain ⟨f, hf, hok, hfp⟩ := (mem_groupOf _ _ _ _ _).mp hp
  obtain ⟨chain, nm, hpath, hclean⟩ := (walk_shape exclude).1 root tree f hf
  rw [← hfp, hpath] at hex
  exact clean_chain_not_underExcluded exclude root chain nm hclean hex

/-- Witness for C3: the copy inside the pruned directory `x` is not in the
reported duplicate group. -/
theorem excluded_dir_paths_not_in_groups_witness :
    (["r", "x", "f"] : Path) ∉ ([["r", "a"], ["r", "b"]] : List Path) :=
  excluded_dir_paths_not_in_groups exHash ["r"] exTreeExcluded "alg" ["x"]
    ["r", "x", "f"] "h5" [["r", "a"], ["r", "b"]]
    ⟨[], "x", ["f"], rfl, by decide, by decide⟩
    (by simp [find_dupes, walkDir, walkSubs, filesOf, scanResults,
      scanStep, get_hash_ok, addHash, exHash, exTreeExcluded])

/-- C4: a file whose read raises an I/O error is reported (path plus OS
reason) and excluded from every hash group, while the scan continues: the
group of any digest consists of exactly the readable files with that
digest, so among K duplicates with one unreadable the remaining K-1 paths
are grouped (and the group disappears below 2 by C1's filter). -/
theorem read_errors_reported_and_skipped (hashFn : HashFn) (root : Path)
    (tree : List FSEntry) (algorithm : String) (exclude : List String)
    (f : FileNode) (e : String) (d : String)
    (hnodup : ((walkDir exclude root tree).map fun g => g.path).Nodup)
    (hf : f ∈ walkDir exclude root tree) (he : f.content = .error e) :
    ((f.path, e) ∈
      (scanResults hashFn algorithm (walkDir exclude root tree)).2) ∧
    (∀ d' ps, (d', ps) ∈
        (scanResults hashFn algorithm (walkDir exclude root tree)).1 →
      f.path ∉ ps) ∧
    lookupIdx (scanResults hashFn algorithm (walkDir exclude root tree)).1
        d =
      groupOf hashFn algorithm (walkDir exclude root tree) d := by
  refine ⟨?_, ?_, lookupIdx_scanResults hashFn algorithm _ d⟩
  · rw [scanResults_errors]
    exact List.mem_filterMap.mpr ⟨f, hf, by rw [he]⟩
  · intro d' ps hm hp
    have hps := mem_scan_entry hashFn algorithm _ d' ps hm
    rw [hps] at hp
    obtain ⟨g, hg, hok, hpath⟩ := (mem_groupOf _ _ _ _ _).mp hp
    have hgf : g = f := List.inj_on_of_nodup_map hnodup hg hf hpath
    rw [hgf, get_hash_error_of_content hashFn algorithm f e he] at hok
    cases hok

/-- Witness for C4: the unreadable copy is reported with its OS reason and
is absent from the group holding the three readable duplicates. -/
theorem read_errors_reported_and_skipped_witness :
    ((["r", "b"], "Permission denied") ∈
      (scanResults exHash "alg" (walkDir [] ["r"] exTreeError)).2) ∧
    (["r", "b"] : Path) ∉
      ([["r", "a"], ["r", "c"], ["r", "d"]] : List Path) :=
  have h := read_errors_reported_and_skipped exHash ["r"] exTreeError
    "alg" [] ⟨["r", "b"], .error "Permission denied"⟩ "Permission denied"
    "h5"
    (by simp [walkDir, walkSubs, filesOf, exTreeError])
    (by simp [walkDir, walkSubs, filesOf, exTreeError])
    rfl
  ⟨h.1, h.2.1 "h5" [["r", "a"], ["r", "c"], ["r", "d"]]
    (by simp [scanResults, walkDir, walkSubs, filesOf, scanStep,
      get_hash_ok, addHash, exHash, exTreeError])⟩

/-- C5: an algorithm identifier whose lowercased form is not in the
supported set makes the program fail fatally at startup: `main` returns an
error (the invalid-algorithm error, reporting the supported list, whenever
the directory check passes), and the outcome is independent of the
filesystem tree — no traversal occurs.  The check is made once in `main`,
not per file. -/
theorem unsupported_algorithm_fatal_before_traversal (env : Env)
    (args : Args) (h : pyLower args.algorithm ∉ env.algorithms_available) :
    (∃ e, main_run env args = .error e) ∧
    (env.isDirectory = true →
      main_run env args =
        .error (.invalidAlgorithm env.algorithms_available)) ∧
    (∀ (tree' : List FSEntry) (root' : Path),
      main_run { env with tree := tree', root := root' } args =
        main_run env args) := by
  refine ⟨?_, ?_, ?_⟩
  · cases hdir : env.isDirectory with
    | false =>
        exact ⟨.invalidDirectory args.directory, by simp [main_run, hdir]⟩
    | true =>
        exact ⟨.invalidAlgorithm env.algorithms_available,
          by simp [main_run, hdir, h]⟩
  · intro hdir
    simp [main_run, hdir, h]
  · intro tree' root'
    cases hdir : env.isDirectory with
    | false => simp [main_run, hdir]
    | true => simp [main_run, hdir, h]

/-- Witness for C5: `rot13` is rejected with the supported list, and the
outcome does not change when the tree is replaced — no traversal
happened. -/
theorem unsupported_algorithm_fatal_before_traversal_witness :
    main_run exEnv exArgsRot = .error (.invalidAlgorithm ["sha256"]) ∧
    main_run { exEnv with tree := [], root := [] } exArgsRot =
      main_run exEnv exArgsRot :=
  have h := unsupported_algorithm_fatal_before_traversal exEnv exArgsRot
    (by decide)
  ⟨h.2.1 rfl, h.2.2 [] []⟩

/-- C6: within each returned duplicate group the paths appear in discovery
order — each group equals the ordered selection of the walked files with
that digest, a subsequence of the walk's path sequence — and the filtering
step preserves the index's entry order (the result is a sublist of the
index, which the pure filter does not mutate). -/
theorem groups_in_discovery_order (hashFn : HashFn) (root : Path)
    (tree : List FSEntry) (algorithm : String) (exclude : List String) :
    (∀ d ps, (d, ps) ∈ find_dupes hashFn root tree algorithm exclude →
      ps = groupOf hashFn algorithm (walkDir exclude root tree) d ∧
      ps.Sublist ((walkDir exclude root tree).map fun f => f.path)) ∧
    (find_dupes hashFn root tree algorithm exclude).Sublist
      (scanResults hashFn algorithm (walkDir exclude root tree)).1 := by
  constructor
  · intro d ps hm
    have hidx := (List.mem_filter.mp hm).1
    have hps := mem_scan_entry hashFn algorithm _ d ps hidx
    refine ⟨hps, ?_⟩
    rw [hps, groupOf_eq_map_filter]
    exact List.Sublist.map _ (List.filter_sublist _)
  · exact List.filter_sublist _

/-- Witness for C6: the one duplicate group lists the two paths in
discovery order. -/
theorem groups_in_discovery_order_witness :
    ([["r", "a"], ["r", "b"]] : List Path) =
      groupOf exHash "alg" (walkDir [] ["r"] exTreeDupes) "h5" ∧
    ([["r", "a"], ["r", "b"]] : List Path).Sublist
      ((walkDir [] ["r"] exTreeDupes).map fun f => f.path) :=
  (groups_in_discovery_order exHash ["r"] exTreeDupes "alg" []).1
    "h5" [["r", "a"], ["r", "b"]]
    (by simp [find_dupes, walkDir, walkSubs, filesOf, scanResults,
      scanStep, get_hash_ok, addHash, exHash, exTreeDupes])

/-- Counterexample to C7: the `except KeyboardInterrupt` handler only
prints `Aborted.` and lets the script end normally, so the interpreter
exits with code 0 — the same exit code as an uninterrupted successful run.
The exit code therefore does not reflect the interruption. -/
theorem interrupt_exit_code_counterexample :
    (script_run exEnv exArgs true "0.00").2 = 0 ∧
    (script_run exEnv exArgs false "0.00").2 = 0 := by
  constructor <;>
    simp [script_run, main_run, exEnv, exArgs, pyLower]

/-- C7 (amended): on a `KeyboardInterrupt` during the scan the program
stops, discards partial results (only the progress line precedes the
message — no duplicate report is printed), prints `Aborted.`, and exits
with code 0, the same exit code as a successful run. -/
theorem interrupt_aborts_cleanly (env : Env) (args : Args)
    (duration : String) (hdir : env.isDirectory = true)
    (halg : pyLower args.algorithm ∈ env.algorithms_available) :
    script_run env args true duration =
      ([searchingLine, "Aborted."], 0) := by
  simp [script_run, main_run, hdir, halg]

/-- Witness for the amended C7 at a concrete valid environment. -/
theorem interrupt_aborts_cleanly_witness :
    script_run exEnv exArgs true "0.00" =
      ([searchingLine, "Aborted."], 0) :=
  interrupt_aborts_cleanly exEnv exArgs "0.00" rfl (by decide)

/-- C8: scanning is a pure function of the tree, algorithm, exclusion set
(and hash library): two runs over an unchanged tree yield identical
duplicate sets — the same digest-to-group mapping with the same path order
in every group. -/
theorem scan_deterministic (hashFn hashFn' : HashFn) (root root' : Path)
    (tree tree' : List FSEntry) (algorithm algorithm' : String)
    (exclude exclude' : List String) (h1 : hashFn = hashFn')
    (h2 : root = root') (h3 : tree = tree') (h4 : algorithm = algorithm')
    (h5 : exclude = exclude') :
    find_dupes hashFn root tree algorithm exclude =
      find_dupes hashFn' root' tree' algorithm' exclude' := by
  subst h1 h2 h3 h4 h5
  rfl

/-- Witness for C8 at a concrete unchanged tree. -/
theorem scan_deterministic_witness :
    find_dupes exHash ["r"] exTreeDupes "alg" [] =
      find_dupes exHash ["r"] exTreeDupes "alg" [] :=
  scan_deterministic exHash exHash ["r"] ["r"] exTreeDupes exTreeDupes
    "alg" "alg" [] [] rfl rfl rfl rfl rfl

/-- C9: exclusion filtering applies only to directory base names: a
regular file whose base name is in the exclusion set is still walked and
hashed, and its path is stored in the index group of its digest. -/
theorem excluded_name_file_still_hashed (hashFn : HashFn) (root : Path)
    (children : List FSEntry) (algorithm : String)
    (exclude : List String) (n : String) (bs : Bytes)
    (hmem : FSEntry.file n (.ok bs) ∈ children) (hn : n ∈ exclude) :
    (⟨root ++ [n], .ok bs⟩ : FileNode) ∈ walkDir exclude root children ∧
    root ++ [n] ∈ lookupIdx
      (scanResults hashFn algorithm (walkDir exclude root children)).1
      (hashFn algorithm bs) := by
  have hw := mem_walkDir_of_file exclude root children n (.ok bs) hmem
  refine ⟨hw, ?_⟩
  rw [lookupIdx_scanResults]
  exact (mem_groupOf _ _ _ _ _).mpr
    ⟨⟨root ++ [n], .ok bs⟩, hw,
      get_hash_ok hashFn algorithm (root ++ [n]) bs, rfl⟩

/-- Witness for C9: with `x` excluded, the file named `x` is still walked,
indexed, and reported in a duplicate group. -/
theorem excluded_name_file_still_hashed_witness :
    ((⟨["r", "x"], .ok [5]⟩ : FileNode) ∈
      walkDir ["x"] ["r"] exTreeMixed ∧
    ["r", "x"] ∈ lookupIdx
      (scanResults exHash "alg" (walkDir ["x"] ["r"] exTreeMixed)).1
      (exHash "alg" [5])) ∧
    find_dupes exHash ["r"] exTreeMixed "alg" ["x"] =
      [("h5", [["r", "x"], ["r", "y"]])] :=
  ⟨excluded_name_file_still_hashed exHash ["r"] exTreeMixed "alg" ["x"]
      "x" [5] (by simp [exTreeMixed]) (by decide),
   by simp [find_dupes, walkDir, walkSubs, filesOf, scanResults,
     scanStep, get_hash_ok, addHash, exHash, exTreeMixed]⟩

/-- C10: validation tests the lowercased algorithm name against the
supported set, but the original, non-lowercased argument string is what is
passed to `find_dupes` and hence to the hash constructor: whenever the
lowercase form is supported (and the directory is valid), `main` succeeds
and scans with `args.algorithm` as given. -/
theorem original_case_algorithm_passed_on (env : Env) (args : Args)
    (hdir : env.isDirectory = true)
    (halg : pyLower args.algorithm ∈ env.algorithms_available) :
    main_run env args =
      .ok (find_dupes env.hashFn env.root env.tree args.algorithm
        args.exclude) := by
  simp [main_run, hdir, halg]

/-- Witness for C10: `SHA256` passes validation (its lowercase form is
supported) although it is not itself in the supported list, and the scan
runs under the original string `SHA256`. -/
theorem original_case_algorithm_passed_on_witness :
    main_run exEnv exArgsUpper =
      .ok (find_dupes exEnv.hashFn exEnv.root exEnv.tree "SHA256" []) ∧
    pyLower "SHA256" ∈ exEnv.algorithms_available ∧
    "SHA256" ∉ exEnv.algorithms_available :=
  ⟨original_case_algorithm_passed_on exEnv exArgsUpper rfl (by decide),
   by decide, by decide⟩

end FileDupes
